import Mathlib

/-!
Shallow embedding of the two numeric components of the
`gatech_comp_photo_lab` repository (notebook
`src/3-features_keypoints/features_keypoints.ipynb`):

* the Harris **Corner Scorer** (notebook cell 3), and
* the **HoG Descriptor Builder** (notebook cells 5 and 6).

Images and derived fields are modelled as total functions `ℕ → ℕ → ℚ`
together with explicit height/width bounds; all array reads performed by
the notebook stay inside those bounds (border handling is explicit).
Floating-point values are modelled by rationals.
-/

/-- Error kinds observable from the two components.  `invalidInput` and
`invalidConfiguration` are the spec's named error kinds; `negativeDimension`
and `broadcastMismatch` model the errors numpy itself raises
(`np.zeros` with a negative dimension, and assignment of a flattened slice
whose size does not match the destination slot). -/
inductive VisionError where
  | invalidInput
  | invalidConfiguration
  | negativeDimension
  | broadcastMismatch
deriving DecidableEq

instance {ε α : Type} [DecidableEq ε] [DecidableEq α] : DecidableEq (Except ε α) :=
  fun a b =>
    match a, b with
    | .ok x, .ok y =>
        if h : x = y then isTrue (by rw [h]) else isFalse (fun hc => by cases hc; exact h rfl)
    | .error e, .error f =>
        if h : e = f then isTrue (by rw [h]) else isFalse (fun hc => by cases hc; exact h rfl)
    | .ok _, .error _ => isFalse (fun hc => by cases hc)
    | .error _, .ok _ => isFalse (fun hc => by cases hc)

/-- OpenCV's default border extrapolation `BORDER_REFLECT_101`
(`gfedcb | abcdefgh | gfedcba`): an arbitrary integer coordinate is mapped
into `[0, n)` by reflection about the border pixels without repeating them.
The map is periodic with period `2*(n-1)`, which gives this closed form. -/
def refl101 (n : ℕ) (i : ℤ) : ℕ :=
  if n ≤ 1 then 0
  else
    let p : ℤ := 2 * ((n : ℤ) - 1)
    let j : ℕ := (i % p).toNat
    if j < n then j else 2 * (n - 1) - j

/-- Correlation of a 5×5 kernel (anchored at its center) with a grid of
rationals, with out-of-range reads resolved by `refl101` border
extrapolation exactly as `cv2.Sobel` / `cv2.GaussianBlur` do for an
`h × w` array. -/
def corr5 (h w : ℕ) (K : Fin 5 → Fin 5 → ℚ) (f : ℕ → ℕ → ℚ) (y x : ℕ) : ℚ :=
  ∑ u : Fin 5, ∑ v : Fin 5,
    K u v * f (refl101 h ((y : ℤ) + (u.val : ℤ) - 2)) (refl101 w ((x : ℤ) + (v.val : ℤ) - 2))

/-- The 5-tap binomial smoothing vector of `cv2.getDerivKernels` for
`ksize=5`, derivative order 0. -/
def smooth5 : Fin 5 → ℚ := ![1, 4, 6, 4, 1]

/-- The 5-tap first-derivative vector of `cv2.getDerivKernels` for
`ksize=5`, derivative order 1. -/
def deriv5 : Fin 5 → ℚ := ![-1, -2, 0, 2, 1]

/-- `Ix = cv2.Sobel(img, cv2.CV_64F, 1, 0, ksize=5)`: horizontal derivative,
separable kernel `smooth5 (rows) ⊗ deriv5 (columns)` applied by correlation. -/
def sobelX (h w : ℕ) (img : ℕ → ℕ → ℚ) : ℕ → ℕ → ℚ :=
  corr5 h w (fun u v => smooth5 u * deriv5 v) img

/-- `Iy = cv2.Sobel(img, cv2.CV_64F, 0, 1, ksize=5)`: vertical derivative. -/
def sobelY (h w : ℕ) (img : ℕ → ℕ → ℚ) : ℕ → ℕ → ℚ :=
  corr5 h w (fun u v => deriv5 u * smooth5 v) img

/-- The per-pixel Harris response of notebook cell 3:

`Mc = (Sxx * Syy - Sxy * Sxy) - kappa * (Sxx + Syy)**2`

where `Sxx, Syy, Sxy` are the windowed second-moment sums, each smoothed by
the 5×5 window `W`.  The notebook uses `cv2.GaussianBlur(·, (5,5), sigma)`;
the Gaussian weights are transcendental, so the window kernel `W` is a
parameter (the spec allows "Gaussian or box, configurable"). -/
def cornerResponse (h w : ℕ) (img : ℕ → ℕ → ℚ) (W : Fin 5 → Fin 5 → ℚ)
    (kappa : ℚ) (y x : ℕ) : ℚ :=
  let Ix := sobelX h w img
  let Iy := sobelY h w img
  let Sxx := corr5 h w W (fun r c => Ix r c * Ix r c)
  let Syy := corr5 h w W (fun r c => Iy r c * Iy r c)
  let Sxy := corr5 h w W (fun r c => Ix r c * Iy r c)
  (Sxx y x * Syy y x - Sxy y x * Sxy y x) - kappa * (Sxx y x + Syy y x) ^ 2

/-- The 5×5 structuring-element neighborhood of pixel `(y, x)` clipped to the
image: the pixels `np.ones((5,5))` covers when `cv2.dilate` is evaluated at
`(y, x)` (morphological border handling never lets border values win the
maximum, so only in-image pixels participate). -/
def nmsWindow (h w y x : ℕ) : Finset (ℕ × ℕ) :=
  Finset.Ico (y - 2) (min (y + 3) h) ×ˢ Finset.Ico (x - 2) (min (x + 3) w)

/-- `cv2.dilate(Mc, np.ones((5,5)))` at pixel `(y, x)`: the maximum of `f`
over the structuring-element neighborhood. -/
def dilate5 (h w : ℕ) (f : ℕ → ℕ → ℚ) (y x : ℕ) : ℚ :=
  (nmsWindow h w y x).fold max (f y x) (fun p => f p.1 p.2)

/-- The keypoint set of notebook cell 3:

`y, x = np.where((Mc == cv2.dilate(Mc, np.ones(ksize))) & (Mc > threshold))`

i.e. the pixels whose response equals the dilated (neighborhood-maximum)
response and strictly exceeds the threshold. -/
def harrisRaw (h w : ℕ) (img : ℕ → ℕ → ℚ) (W : Fin 5 → Fin 5 → ℚ)
    (kappa t : ℚ) : Finset (ℕ × ℕ) :=
  (Finset.range h ×ˢ Finset.range w).filter fun p =>
    cornerResponse h w img W kappa p.1 p.2
        = dilate5 h w (cornerResponse h w img W kappa) p.1 p.2
      ∧ t < cornerResponse h w img W kappa p.1 p.2

/-- Modelled from the spec: the Corner Scorer's `InvalidInput` guard for
empty images is not written in the notebook (the notebook immediately calls
`cv2.Sobel`, whose own input assertion fails on an empty array); the spec
(§4.1, §7, §8) names that failure `InvalidInput`.  The non-error branch is
`harrisRaw`, translated from notebook cell 3. -/
def harrisKeypoints (h w : ℕ) (img : ℕ → ℕ → ℚ) (W : Fin 5 → Fin 5 → ℚ)
    (kappa t : ℚ) : Except VisionError (Finset (ℕ × ℕ)) :=
  if h = 0 ∨ w = 0 then .error .invalidInput
  else .ok (harrisRaw h w img W kappa t)

/-- One entry of the Cell Histogram Grid of notebook cell 5.  The notebook
computes, for cell `(j, i)` and bin `k`:

`hist[j, i, k] = np.sum(weighted_bins[lo_row:hi_row, lo_col:hi_col][cell == k])`

with `lo_row = j*cell_h`, `hi_row = lo_row + cell_h + 1` (note the `+ 1`:
the slice reaches one pixel into the next cell, clipped at the image edge by
numpy slicing, modelled by `min · h`), and
`weighted_bins = mag * bins` — the summand is the gradient magnitude
**times the bin index**, not the magnitude alone.

The magnitude grid `mag` and quantized-orientation grid `bins` are the
outputs of `cv2.cartToPolar` and `bins = np.int64(nbins * ang / (2*np.pi))`;
they involve transcendental functions (`atan2`, `sqrt`, `π`) and are
therefore inputs of the embedding.  `bins` is `ℕ`-valued because the
notebook's cast of an angle in `[0, 2π)` is nonnegative. -/
def histEntry (h w ch cw : ℕ) (mag : ℕ → ℕ → ℚ) (bins : ℕ → ℕ → ℕ)
    (j i k : ℕ) : ℚ :=
  ∑ r ∈ Finset.Ico (j * ch) (min (j * ch + ch + 1) h),
    ∑ c ∈ Finset.Ico (i * cw) (min (i * cw + cw + 1) w),
      if bins r c = k then mag r c * (bins r c : ℚ) else 0

/-- The spec's Cell Histogram Grid entry, stated from the spec's words for
comparison with `histEntry` (spec §4.2 step 3: "Partition the image into a
grid of non-overlapping cells of the configured size; for each cell and each
bin, sum the gradient magnitudes of pixels in that cell whose quantized
orientation equals that bin"). -/
def specCellHistogram (h w ch cw : ℕ) (mag : ℕ → ℕ → ℚ) (bins : ℕ → ℕ → ℕ)
    (j i k : ℕ) : ℚ :=
  ∑ r ∈ Finset.Ico (j * ch) (min ((j + 1) * ch) h),
    ∑ c ∈ Finset.Ico (i * cw) (min ((i + 1) * cw) w),
      if bins r c = k then mag r c else 0

/-- `l1_norm = np.sum(block)` for the block at position `(j, i)` in notebook
cell 6: the sum of every entry of the slice
`hist[r_offset : r_offset + block_h, c_offset : c_offset + block_w]` of the
`(h/ch) × (w/cw) × nb` histogram array, where `r_offset = j * ch` and
`c_offset = i * cw` (the notebook offsets into the **cell** grid using the
**pixel** cell size; slices are clipped by numpy, modelled by `min`). -/
def blockSumL1 (h w ch cw bh bw nb : ℕ) (mag : ℕ → ℕ → ℚ) (bins : ℕ → ℕ → ℕ)
    (j i : ℕ) : ℚ :=
  ∑ jc ∈ Finset.Ico (j * ch) (min (j * ch + bh) (h / ch)),
    ∑ ic ∈ Finset.Ico (i * cw) (min (i * cw + bw) (w / cw)),
      ∑ k ∈ Finset.range nb, histEntry h w ch cw mag bins jc ic k

/-- `block.flatten() / l1_norm` for the (possibly clipped) slice of the
histogram array at block position `(j, i)`: C-order flattening (rows, then
columns, then bins) of the slice, each entry divided by `l1`. -/
def blockFlattenDiv (h w ch cw bh bw nb : ℕ) (mag : ℕ → ℕ → ℚ)
    (bins : ℕ → ℕ → ℕ) (j i : ℕ) (l1 : ℚ) : List ℚ :=
  (List.range (min (j * ch + bh) (h / ch) - j * ch)).flatMap fun dr =>
    (List.range (min (i * cw + bw) (w / cw) - i * cw)).flatMap fun dc =>
      (List.range nb).map fun k =>
        histEntry h w ch cw mag bins (j * ch + dr) (i * cw + dc) k / l1

/-- The Block Descriptor at position `(j, i)` as produced by notebook cell 6:

```
block = hist[r_offset:r_offset+block_size[0], c_offset:c_offset+block_size[1]]
l1_norm = np.sum(block)
if l1_norm > 0:
    blocks[j, i] = block.flatten() / l1_norm
```

`blocks` is preallocated with `np.zeros`, so when `l1_norm > 0` is false the
descriptor stays all-zero.  When `l1_norm > 0` holds, numpy's assignment
succeeds iff the flattened slice has exactly the slot size
`block_h * block_w * nbins` (direct copy) or size 1 (broadcast fill);
otherwise it raises a broadcast error, modelled as `broadcastMismatch`. -/
def blockDescriptor (h w ch cw bh bw nb : ℕ) (mag : ℕ → ℕ → ℚ)
    (bins : ℕ → ℕ → ℕ) (j i : ℕ) : Except VisionError (List ℚ) :=
  let rr : ℕ := min (j * ch + bh) (h / ch) - j * ch
  let cc : ℕ := min (i * cw + bw) (w / cw) - i * cw
  let l1 : ℚ := blockSumL1 h w ch cw bh bw nb mag bins j i
  if 0 < l1 then
    if rr * cc * nb = bh * bw * nb then
      .ok (blockFlattenDiv h w ch cw bh bw nb mag bins j i l1)
    else if rr * cc * nb = 1 then
      .ok (List.replicate (bh * bw * nb)
            (histEntry h w ch cw mag bins (j * ch) (i * cw) 0 / l1))
    else .error .broadcastMismatch
  else .ok (List.replicate (bh * bw * nb) 0)

/-- Concatenate a raster-ordered list of per-block results, propagating the
first error (the notebook's loop raises at the first failing assignment). -/
def concatExcept : List (Except VisionError (List ℚ)) → Except VisionError (List ℚ)
  | [] => .ok []
  | .error e :: _ => .error e
  | .ok l :: xs => Except.map (fun ls => l ++ ls) (concatExcept xs)

/-- The HoG Feature Vector of notebook cells 5–6, from the magnitude and
quantized-bin grids onward.

`ncells = tuple(np.divide(img.shape, cell_size))` — under the repository's
Python 2.7 environment (README: "anaconda for python 2.7"), `np.divide` on
integer inputs is C-style integer division, so `ncells = (h/ch, w/cw)`
(floor; leftover pixels are silently ignored, and `np.divide(n, 0) = 0`
matches Lean's `h / 0 = 0`).  No divisibility or size validation exists in
the notebook.

`rblocks, cblocks = tuple(1 + np.subtract(ncells, block_size))` — if either
count is negative, `np.zeros((rblocks, cblocks, ...))` raises "negative
dimensions are not allowed", modelled as `negativeDimension`; the guard
`ncr + 1 < bh` is exactly `1 + ncr - bh < 0`.  Otherwise the block loop
runs in raster order and `feature_vector = blocks.flatten()`. -/
def hogFeatureVector (h w ch cw bh bw nb : ℕ) (mag : ℕ → ℕ → ℚ)
    (bins : ℕ → ℕ → ℕ) : Except VisionError (List ℚ) :=
  let ncr : ℕ := h / ch
  let ncc : ℕ := w / cw
  if ncr + 1 < bh ∨ ncc + 1 < bw then .error .negativeDimension
  else
    concatExcept
      ((List.range (ncr + 1 - bh)).flatMap fun j =>
        (List.range (ncc + 1 - bw)).map fun i =>
          blockDescriptor h w ch cw bh bw nb mag bins j i)

theorem refl101_lt (n : ℕ) (hn : 0 < n) (i : ℤ) : refl101 n i < n := by
  unfold refl101
  by_cases h1 : n ≤ 1
  · simp [h1]; omega
  · simp only [h1, if_false]
    have hp : (0 : ℤ) < 2 * ((n : ℤ) - 1) := by
      have : (2 : ℤ) ≤ (n : ℤ) := by exact_mod_cast Nat.succ_le_of_lt (by omega)
      nlinarith
    have h0 : 0 ≤ i % (2 * ((n : ℤ) - 1)) := Int.emod_nonneg i (ne_of_gt hp)
    have h2 : i % (2 * ((n : ℤ) - 1)) < 2 * ((n : ℤ) - 1) := Int.emod_lt_of_pos i hp
    set j : ℕ := (i % (2 * ((n : ℤ) - 1))).toNat with hj
    have hjlt : (j : ℤ) < 2 * ((n : ℤ) - 1) := by rw [hj]; omega
    by_cases h3 : j < n
    · simp [h3]
    · simp only [h3, if_false]
      omega

theorem corr5_const (h w : ℕ) (hh : 0 < h) (hw : 0 < w) (K : Fin 5 → Fin 5 → ℚ)
    (img : ℕ → ℕ → ℚ) (v : ℚ) (himg : ∀ r c, r < h → c < w → img r c = v)
    (y x : ℕ) : corr5 h w K img y x = (∑ u : Fin 5, ∑ t : Fin 5, K u t) * v := by
  unfold corr5
  rw [Finset.sum_mul]
  refine Finset.sum_congr rfl fun u _ => ?_
  rw [Finset.sum_mul]
  refine Finset.sum_congr rfl fun t _ => ?_
  rw [himg _ _ (refl101_lt h hh _) (refl101_lt w hw _)]

theorem sobelX_const (h w : ℕ) (hh : 0 < h) (hw : 0 < w) (img : ℕ → ℕ → ℚ)
    (v : ℚ) (himg : ∀ r c, r < h → c < w → img r c = v) (y x : ℕ) :
    sobelX h w img y x = 0 := by
  unfold sobelX
  rw [corr5_const h w hh hw _ img v himg y x]
  have hk : (∑ u : Fin 5, ∑ t : Fin 5, smooth5 u * deriv5 t) = 0 := by
    simp only [Fin.sum_univ_five, smooth5, deriv5]
    norm_num
  rw [hk, zero_mul]

theorem sobelY_const (h w : ℕ) (hh : 0 < h) (hw : 0 < w) (img : ℕ → ℕ → ℚ)
    (v : ℚ) (himg : ∀ r c, r < h → c < w → img r c = v) (y x : ℕ) :
    sobelY h w img y x = 0 := by
  unfold sobelY
  rw [corr5_const h w hh hw _ img v himg y x]
  have hk : (∑ u : Fin 5, ∑ t : Fin 5, deriv5 u * smooth5 t) = 0 := by
    simp only [Fin.sum_univ_five, smooth5, deriv5]
    norm_num
  rw [hk, zero_mul]

theorem corr5_zero (h w : ℕ) (K : Fin 5 → Fin 5 → ℚ) (f : ℕ → ℕ → ℚ)
    (hf : ∀ r c, f r c = 0) (y x : ℕ) : corr5 h w K f y x = 0 := by
  unfold corr5
  refine Finset.sum_eq_zero fun u _ => Finset.sum_eq_zero fun t _ => ?_
  rw [hf]; ring

theorem cornerResponse_const (h w : ℕ) (hh : 0 < h) (hw : 0 < w)
    (img : ℕ → ℕ → ℚ) (W : Fin 5 → Fin 5 → ℚ) (kappa : ℚ) (v : ℚ)
    (himg : ∀ r c, r < h → c < w → img r c = v) (y x : ℕ) :
    cornerResponse h w img W kappa y x = 0 := by
  unfold cornerResponse
  have hx : ∀ r c, sobelX h w img r c * sobelX h w img r c = 0 := fun r c => by
    rw [sobelX_const h w hh hw img v himg]; ring
  have hy : ∀ r c, sobelY h w img r c * sobelY h w img r c = 0 := fun r c => by
    rw [sobelY_const h w hh hw img v himg]; ring
  have hxy : ∀ r c, sobelX h w img r c * sobelY h w img r c = 0 := fun r c => by
    rw [sobelX_const h w hh hw img v himg]; ring
  simp only
  rw [corr5_zero h w W _ hx, corr5_zero h w W _ hy, corr5_zero h w W _ hxy]
  ring

theorem histEntry_nonneg (h w ch cw : ℕ) (mag : ℕ → ℕ → ℚ) (bins : ℕ → ℕ → ℕ)
    (hmag : ∀ r c, 0 ≤ mag r c) (j i k : ℕ) :
    0 ≤ histEntry h w ch cw mag bins j i k := by
  unfold histEntry
  refine Finset.sum_nonneg fun r _ => Finset.sum_nonneg fun c _ => ?_
  by_cases hb : bins r c = k
  · rw [if_pos hb]
    exact mul_nonneg (hmag r c) (by positivity)
  · rw [if_neg hb]

theorem histEntry_bin_zero (h w ch cw : ℕ) (mag : ℕ → ℕ → ℚ)
    (bins : ℕ → ℕ → ℕ) (j i : ℕ) : histEntry h w ch cw mag bins j i 0 = 0 := by
  unfold histEntry
  refine Finset.sum_eq_zero fun r _ => Finset.sum_eq_zero fun c _ => ?_
  by_cases hb : bins r c = 0
  · rw [if_pos hb, hb]
    norm_num
  · rw [if_neg hb]

theorem blockSumL1_nonneg (h w ch cw bh bw nb : ℕ) (mag : ℕ → ℕ → ℚ)
    (bins : ℕ → ℕ → ℕ) (hmag : ∀ r c, 0 ≤ mag r c) (j i : ℕ) :
    0 ≤ blockSumL1 h w ch cw bh bw nb mag bins j i := by
  unfold blockSumL1
  refine Finset.sum_nonneg fun jc _ => Finset.sum_nonneg fun ic _ =>
    Finset.sum_nonneg fun k _ => histEntry_nonneg h w ch cw mag bins hmag jc ic k

theorem blockSumL1_zero_rows (h w ch cw bh bw nb : ℕ) (mag : ℕ → ℕ → ℚ)
    (bins : ℕ → ℕ → ℕ) (j i : ℕ) (hrow : min (j * ch + bh) (h / ch) ≤ j * ch) :
    blockSumL1 h w ch cw bh bw nb mag bins j i = 0 := by
  unfold blockSumL1
  rw [Finset.Ico_eq_empty (not_lt.mpr hrow), Finset.sum_empty]

theorem blockSumL1_zero_cols (h w ch cw bh bw nb : ℕ) (mag : ℕ → ℕ → ℚ)
    (bins : ℕ → ℕ → ℕ) (j i : ℕ) (hcol : min (i * cw + bw) (w / cw) ≤ i * cw) :
    blockSumL1 h w ch cw bh bw nb mag bins j i = 0 := by
  unfold blockSumL1
  refine Finset.sum_eq_zero fun jc _ => ?_
  rw [Finset.Ico_eq_empty (not_lt.mpr hcol), Finset.sum_empty]

theorem listRangeMapSum (n : ℕ) (g : ℕ → ℚ) :
    ((List.range n).map g).sum = ∑ i ∈ Finset.range n, g i := by
  induction n with
  | zero => simp
  | succ m ih =>
    rw [List.range_succ, List.map_append, List.sum_append, Finset.sum_range_succ, ih]
    simp

theorem listRangeFlatMapSum (n : ℕ) (g : ℕ → List ℚ) :
    ((List.range n).flatMap g).sum = ∑ i ∈ Finset.range n, (g i).sum := by
  induction n with
  | zero => simp
  | succ m ih =>
    rw [List.range_succ, List.flatMap_append, List.sum_append, Finset.sum_range_succ, ih]
    simp

theorem listRangeFlatMapLength {α : Type} (n : ℕ) (g : ℕ → List α) :
    ((List.range n).flatMap g).length = ∑ i ∈ Finset.range n, (g i).length := by
  induction n with
  | zero => simp
  | succ m ih =>
    rw [List.range_succ, List.flatMap_append, List.length_append,
      Finset.sum_range_succ, ih]
    simp

theorem concatExcept_ok_mem (l : List (Except VisionError (List ℚ))) (fv : List ℚ)
    (hc : concatExcept l = .ok fv) (x : ℚ) (hx : x ∈ fv) :
    ∃ e ∈ l, ∃ d, e = Except.ok d ∧ x ∈ d := by
  induction l generalizing fv with
  | nil =>
    simp only [concatExcept, Except.ok.injEq] at hc
    subst hc
    cases hx
  | cons a as ih =>
    cases a with
    | error e => simp only [concatExcept] at hc; cases hc
    | ok la =>
      simp only [concatExcept] at hc
      cases hrec : concatExcept as with
      | error e => rw [hrec] at hc; simp only [Except.map] at hc; cases hc
      | ok ls =>
        rw [hrec] at hc
        simp only [Except.map, Except.ok.injEq] at hc
        subst hc
        rcases List.mem_append.mp hx with hmem | hmem
        · exact ⟨.ok la, List.mem_cons_self _ _, la, rfl, hmem⟩
        · obtain ⟨e, he, d, hd, hxd⟩ := ih ls hrec hmem
          exact ⟨e, List.mem_cons_of_mem _ he, d, hd, hxd⟩

theorem concatExcept_ok_length (l : List (Except VisionError (List ℚ)))
    (fv : List ℚ) (n : ℕ) (hc : concatExcept l = .ok fv)
    (hlen : ∀ e ∈ l, ∀ d, e = Except.ok d → d.length = n) :
    fv.length = l.length * n := by
  induction l generalizing fv with
  | nil =>
    simp only [concatExcept, Except.ok.injEq] at hc
    subst hc
    simp
  | cons a as ih =>
    cases a with
    | error e => simp only [concatExcept] at hc; cases hc
    | ok la =>
      simp only [concatExcept] at hc
      cases hrec : concatExcept as with
      | error e => rw [hrec] at hc; simp only [Except.map] at hc; cases hc
      | ok ls =>
        rw [hrec] at hc
        simp only [Except.map, Except.ok.injEq] at hc
        subst hc
        have h1 : la.length = n :=
          hlen (.ok la) (List.mem_cons_self _ _) la rfl
        have h2 : ls.length = as.length * n :=
          ih ls hrec fun e he d hd => hlen e (List.mem_cons_of_mem _ he) d hd
        rw [List.length_append, h1, h2, List.length_cons]
        ring

theorem concatExcept_all_ok (l : List (Except VisionError (List ℚ)))
    (hok : ∀ e ∈ l, ∃ d, e = Except.ok d) :
    ∃ fv, concatExcept l = .ok fv := by
  induction l with
  | nil => exact ⟨[], rfl⟩
  | cons a as ih =>
    obtain ⟨da, hda⟩ := hok a (List.mem_cons_self _ _)
    obtain ⟨fs, hfs⟩ := ih fun e he => hok e (List.mem_cons_of_mem _ he)
    subst hda
    refine ⟨da ++ fs, ?_⟩
    simp only [concatExcept]
    rw [hfs]
    rfl

theorem blockFlattenDiv_length (h w ch cw bh bw nb : ℕ) (mag : ℕ → ℕ → ℚ)
    (bins : ℕ → ℕ → ℕ) (j i : ℕ) (l1 : ℚ) :
    (blockFlattenDiv h w ch cw bh bw nb mag bins j i l1).length
      = (min (j * ch + bh) (h / ch) - j * ch)
          * ((min (i * cw + bw) (w / cw) - i * cw) * nb) := by
  unfold blockFlattenDiv
  rw [listRangeFlatMapLength]
  calc
    ∑ dr ∈ Finset.range (min (j * ch + bh) (h / ch) - j * ch),
        ((List.range (min (i * cw + bw) (w / cw) - i * cw)).flatMap fun dc =>
          (List.range nb).map fun k =>
            histEntry h w ch cw mag bins (j * ch + dr) (i * cw + dc) k / l1).length
      = ∑ dr ∈ Finset.range (min (j * ch + bh) (h / ch) - j * ch),
          (min (i * cw + bw) (w / cw) - i * cw) * nb := by
        refine Finset.sum_congr rfl fun dr _ => ?_
        rw [listRangeFlatMapLength]
        simp [List.length_map, List.length_range]
    _ = (min (j * ch + bh) (h / ch) - j * ch)
          * ((min (i * cw + bw) (w / cw) - i * cw) * nb) := by
        rw [Finset.sum_const, Finset.card_range, smul_eq_mul]

theorem blockFlattenDiv_sum (h w ch cw bh bw nb : ℕ) (mag : ℕ → ℕ → ℚ)
    (bins : ℕ → ℕ → ℕ) (j i : ℕ) (l1 : ℚ) :
    (blockFlattenDiv h w ch cw bh bw nb mag bins j i l1).sum
      = blockSumL1 h w ch cw bh bw nb mag bins j i / l1 := by
  unfold blockFlattenDiv blockSumL1
  rw [listRangeFlatMapSum]
  rw [Finset.sum_Ico_eq_sum_range]
  rw [Finset.sum_div]
  refine Finset.sum_congr rfl fun dr _ => ?_
  rw [listRangeFlatMapSum]
  rw [Finset.sum_Ico_eq_sum_range]
  rw [Finset.sum_div]
  refine Finset.sum_congr rfl fun dc _ => ?_
  rw [listRangeMapSum, Finset.sum_div]

theorem blockDescriptor_length (h w ch cw bh bw nb : ℕ) (mag : ℕ → ℕ → ℚ)
    (bins : ℕ → ℕ → ℕ) (j i : ℕ) (d : List ℚ)
    (hd : blockDescriptor h w ch cw bh bw nb mag bins j i = .ok d) :
    d.length = bh * bw * nb := by
  simp only [blockDescriptor] at hd
  split_ifs at hd with h1 h2 h3
  · have hde := Except.ok.inj hd
    rw [← hde, blockFlattenDiv_length, ← mul_assoc]
    exact h2
  · have hde := Except.ok.inj hd
    rw [← hde, List.length_replicate]
  · have hde := Except.ok.inj hd
    rw [← hde, List.length_replicate]

theorem blockSumL1_of_one_bin (h w ch cw bh bw : ℕ) (mag : ℕ → ℕ → ℚ)
    (bins : ℕ → ℕ → ℕ) (j i : ℕ) :
    blockSumL1 h w ch cw bh bw 1 mag bins j i = 0 := by
  unfold blockSumL1
  refine Finset.sum_eq_zero fun jc _ => Finset.sum_eq_zero fun ic _ => ?_
  rw [Finset.sum_range_one]
  exact histEntry_bin_zero h w ch cw mag bins jc ic

theorem blockDescriptor_sum (h w ch cw bh bw nb : ℕ) (mag : ℕ → ℕ → ℚ)
    (bins : ℕ → ℕ → ℕ) (j i : ℕ) (d : List ℚ)
    (hd : blockDescriptor h w ch cw bh bw nb mag bins j i = .ok d) :
    d.sum = 0 ∨ d.sum = 1 := by
  simp only [blockDescriptor] at hd
  split_ifs at hd with h1 h2 h3
  · right
    have hde := Except.ok.inj hd
    rw [← hde, blockFlattenDiv_sum]
    exact div_self (ne_of_gt h1)
  · exfalso
    have hnb : nb = 1 := Nat.eq_one_of_mul_eq_one_left h3
    rw [hnb, blockSumL1_of_one_bin] at h1
    exact lt_irrefl 0 h1
  · left
    have hde := Except.ok.inj hd
    rw [← hde, List.sum_replicate, smul_zero]

theorem blockDescriptor_entries_nonneg (h w ch cw bh bw nb : ℕ)
    (mag : ℕ → ℕ → ℚ) (bins : ℕ → ℕ → ℕ) (hmag : ∀ r c, 0 ≤ mag r c)
    (j i : ℕ) (d : List ℚ)
    (hd : blockDescriptor h w ch cw bh bw nb mag bins j i = .ok d) :
    ∀ x ∈ d, 0 ≤ x := by
  simp only [blockDescriptor] at hd
  split_ifs at hd with h1 h2 h3
  · intro x hx
    have hde := Except.ok.inj hd
    rw [← hde] at hx
    unfold blockFlattenDiv at hx
    rcases List.mem_flatMap.mp hx with ⟨dr, hdr, hx2⟩
    rcases List.mem_flatMap.mp hx2 with ⟨dc, hdc, hx3⟩
    rcases List.mem_map.mp hx3 with ⟨k, hk, hxe⟩
    rw [← hxe]
    exact div_nonneg (histEntry_nonneg h w ch cw mag bins hmag _ _ _) (le_of_lt h1)
  · intro x hx
    have hde := Except.ok.inj hd
    rw [← hde] at hx
    rw [List.eq_of_mem_replicate hx, histEntry_bin_zero, zero_div]
  · intro x hx
    have hde := Except.ok.inj hd
    rw [← hde] at hx
    rw [List.eq_of_mem_replicate hx]

theorem blockDescriptor_ok_of_sizeMatch (h w ch cw bh bw nb : ℕ)
    (mag : ℕ → ℕ → ℚ) (bins : ℕ → ℕ → ℕ) (j i : ℕ)
    (hsz : (min (j * ch + bh) (h / ch) - j * ch)
        * (min (i * cw + bw) (w / cw) - i * cw) * nb = bh * bw * nb) :
    ∃ d, blockDescriptor h w ch cw bh bw nb mag bins j i = .ok d := by
  simp only [blockDescriptor]
  split_ifs with h1
  · exact ⟨_, rfl⟩
  · exact ⟨_, rfl⟩

theorem blockDescriptor_ok_of_l1_zero (h w ch cw bh bw nb : ℕ)
    (mag : ℕ → ℕ → ℚ) (bins : ℕ → ℕ → ℕ) (j i : ℕ)
    (hz : blockSumL1 h w ch cw bh bw nb mag bins j i = 0) :
    ∃ d, blockDescriptor h w ch cw bh bw nb mag bins j i = .ok d := by
  simp only [blockDescriptor]
  have hneg : ¬ 0 < blockSumL1 h w ch cw bh bw nb mag bins j i := by
    rw [hz]
    exact lt_irrefl 0
  rw [if_neg hneg]
  exact ⟨_, rfl⟩

theorem concatExcept_flatMap_nil (l : List ℕ) :
    concatExcept (l.flatMap fun _ => ([] : List (Except VisionError (List ℚ)))) = .ok [] := by
  induction l with
  | nil => rfl
  | cons a as ih => simpa [List.flatMap_cons, concatExcept] using ih

theorem hogFeatureVector_length_ok (h w ch cw bh bw nb : ℕ) (mag : ℕ → ℕ → ℚ)
    (bins : ℕ → ℕ → ℕ) (fv : List ℚ)
    (hfv : hogFeatureVector h w ch cw bh bw nb mag bins = .ok fv) :
    fv.length = (h / ch + 1 - bh) * ((w / cw + 1 - bw) * (bh * bw * nb)) := by
  simp only [hogFeatureVector] at hfv
  split_ifs at hfv with hneg
  have hall : ∀ e ∈ (List.range (h / ch + 1 - bh)).flatMap fun j =>
      (List.range (w / cw + 1 - bw)).map fun i =>
        blockDescriptor h w ch cw bh bw nb mag bins j i,
      ∀ d, e = Except.ok d → d.length = bh * bw * nb := by
    intro e he d hde
    rcases List.mem_flatMap.mp he with ⟨j, hj, hmem⟩
    rcases List.mem_map.mp hmem with ⟨i, hi, hei⟩
    subst hei
    exact blockDescriptor_length h w ch cw bh bw nb mag bins j i d hde
  have hlen := concatExcept_ok_length _ fv (bh * bw * nb) hfv hall
  rw [hlen, listRangeFlatMapLength]
  have hinner : ∀ j : ℕ, ((List.range (w / cw + 1 - bw)).map fun i =>
      blockDescriptor h w ch cw bh bw nb mag bins j i).length = w / cw + 1 - bw :=
    fun j => by rw [List.length_map, List.length_range]
  rw [Finset.sum_congr rfl fun j _ => hinner j]
  rw [Finset.sum_const, Finset.card_range, smul_eq_mul, mul_assoc]

theorem hog256_all_ok (mag : ℕ → ℕ → ℚ) (bins : ℕ → ℕ → ℕ) :
    ∃ fv, hogFeatureVector 256 256 8 8 3 3 9 mag bins = .ok fv := by
  have h32 : (256 : ℕ) / 8 = 32 := by norm_num
  simp only [hogFeatureVector]
  rw [if_neg (by omega)]
  apply concatExcept_all_ok
  intro e he
  rcases List.mem_flatMap.mp he with ⟨j, hj, hmem⟩
  rcases List.mem_map.mp hmem with ⟨i, hi, hei⟩
  rw [List.mem_range] at hj hi
  subst hei
  by_cases hr : 32 ≤ j * 8
  · exact blockDescriptor_ok_of_l1_zero 256 256 8 8 3 3 9 mag bins j i
      (blockSumL1_zero_rows 256 256 8 8 3 3 9 mag bins j i (by simp only [h32]; omega))
  · by_cases hc : 32 ≤ i * 8
    · exact blockDescriptor_ok_of_l1_zero 256 256 8 8 3 3 9 mag bins j i
        (blockSumL1_zero_cols 256 256 8 8 3 3 9 mag bins j i (by simp only [h32]; omega))
    · have hrr : min (j * 8 + 3) (256 / 8) - j * 8 = 3 := by simp only [h32]; omega
      have hcc : min (i * 8 + 3) (256 / 8) - i * 8 = 3 := by simp only [h32]; omega
      exact blockDescriptor_ok_of_sizeMatch 256 256 8 8 3 3 9 mag bins j i
        (by rw [hrr, hcc])

theorem hog1_eval :
    hogFeatureVector 1 1 1 1 1 1 1 (fun _ _ => 0) (fun _ _ => 0) = .ok [0] := by
  have hz : blockSumL1 1 1 1 1 1 1 1 (fun _ _ => 0) (fun _ _ => 0) 0 0 = 0 := by
    simp [blockSumL1, histEntry]
  have hbd : blockDescriptor 1 1 1 1 1 1 1 (fun _ _ => 0) (fun _ _ => 0) 0 0
      = .ok (List.replicate (1 * 1 * 1) 0) := by
    simp only [blockDescriptor]
    rw [if_neg (by rw [hz]; exact lt_irrefl 0)]
  simp only [hogFeatureVector]
  rw [if_neg (by norm_num)]
  rw [show (1 : ℕ) / 1 + 1 - 1 = 1 from by norm_num]
  rw [show List.range 1 = [0] from rfl]
  simp only [List.flatMap_cons, List.flatMap_nil, List.map_cons, List.map_nil,
    List.append_nil]
  rw [hbd]
  simp [concatExcept, Except.map]

/-- C1: the claim states that the Cell Histogram Grid entry at `(j, i, k)` is
the sum of the gradient magnitudes of the cell's pixels whose quantized bin
is `k`.  The code sums `weighted_bins = mag * bins`, i.e. magnitude times
bin index: on a one-pixel image whose pixel has magnitude 1 and bin 2, the
code's entry for bin 2 is 2, while the spec's entry is 1. -/
theorem C1_hist_weight_is_bin_index_times_mag :
    histEntry 1 1 1 1 (fun _ _ => 1) (fun _ _ => 2) 0 0 2 = 2
      ∧ specCellHistogram 1 1 1 1 (fun _ _ => 1) (fun _ _ => 2) 0 0 2 = 1
      ∧ (2 : ℚ) ≠ 1 := by
  refine ⟨?_, ?_, by norm_num⟩
  · norm_num [histEntry, Finset.sum_Ico_eq_sum_range, Finset.sum_range_succ]
  · norm_num [specCellHistogram, Finset.sum_Ico_eq_sum_range, Finset.sum_range_succ]

/-- C2: the claim states the block at `(j, i)` covers cells
`j..j+block_h-1 × i..i+block_w-1` (one-cell stride).  The code offsets into
the cell grid by `r_offset = j * cell_size[0]`: with 16×16 image, 4×4 cells
(4×4 cell grid), 2×2 blocks and 2 bins, the block at `(1, 0)` reads cell
rows starting at 4 — outside the 4-row cell grid — so its descriptor is all
zeros even though the claim's covered cell `(1, 0)` has positive histogram
mass (uniform magnitude-1, bin-1 input). -/
theorem C2_block_stride_is_cell_size :
    blockDescriptor 16 16 4 4 2 2 2 (fun _ _ => 1) (fun _ _ => 1) 1 0
        = .ok (List.replicate 8 0)
      ∧ 0 < histEntry 16 16 4 4 (fun _ _ => 1) (fun _ _ => 1) 1 0 1 := by
  constructor
  · have hz : blockSumL1 16 16 4 4 2 2 2 (fun _ _ => 1) (fun _ _ => 1) 1 0 = 0 :=
      blockSumL1_zero_rows 16 16 4 4 2 2 2 (fun _ _ => 1) (fun _ _ => 1) 1 0 (by omega)
    simp only [blockDescriptor]
    rw [if_neg (by rw [hz]; exact lt_irrefl 0)]
  · have h25 : histEntry 16 16 4 4 (fun _ _ => 1) (fun _ _ => 1) 1 0 1 = 25 := by
      norm_num [histEntry, Finset.sum_Ico_eq_sum_range, Finset.sum_range_succ]
    rw [h25]
    norm_num

/-- C3: the claim states cells are non-overlapping, every pixel contributing
to exactly one cell.  The code slices `lo : lo + cell_size + 1`, so cells
overlap by one pixel: on a 4×4 image with 2×2 cells, a unit weight at pixel
`(2, 2)` (bin 1) appears in the histogram of cell `(0, 0)` and also in the
histogram of cell `(1, 1)`. -/
theorem C3_cells_overlap :
    histEntry 4 4 2 2 (fun r c => if r = 2 ∧ c = 2 then 1 else 0) (fun _ _ => 1) 0 0 1 = 1
      ∧ histEntry 4 4 2 2 (fun r c => if r = 2 ∧ c = 2 then 1 else 0) (fun _ _ => 1) 1 1 1 = 1 := by
  constructor
  · norm_num [histEntry, Finset.sum_Ico_eq_sum_range, Finset.sum_range_succ]
  · norm_num [histEntry, Finset.sum_Ico_eq_sum_range, Finset.sum_range_succ]
    decide

/-- C4: whenever the HoG builder returns a Feature Vector, its length is
`blocks_h * blocks_w * block_h * block_w * nbins` with
`blocks_h = cells_h - block_h + 1` (and likewise for columns); in
particular every 256×256 image with 8×8 cells, 3×3 blocks and 9 bins yields
a vector of length 72900. -/
theorem C4_feature_vector_length :
    (∀ h w ch cw bh bw nb : ℕ, ∀ mag : ℕ → ℕ → ℚ, ∀ bins : ℕ → ℕ → ℕ, ∀ fv : List ℚ,
        hogFeatureVector h w ch cw bh bw nb mag bins = .ok fv →
        fv.length = (h / ch + 1 - bh) * ((w / cw + 1 - bw) * (bh * bw * nb)))
      ∧ ∀ mag : ℕ → ℕ → ℚ, ∀ bins : ℕ → ℕ → ℕ, ∃ fv : List ℚ,
          hogFeatureVector 256 256 8 8 3 3 9 mag bins = .ok fv ∧ fv.length = 72900 := by
  constructor
  · intro h w ch cw bh bw nb mag bins fv hfv
    exact hogFeatureVector_length_ok h w ch cw bh bw nb mag bins fv hfv
  · intro mag bins
    obtain ⟨fv, hfv⟩ := hog256_all_ok mag bins
    refine ⟨fv, hfv, ?_⟩
    rw [hogFeatureVector_length_ok 256 256 8 8 3 3 9 mag bins fv hfv]

/-- C4 witness: a concrete 1×1 run returning `[0]`, whose length matches the
formula. -/
theorem C4_witness :
    hogFeatureVector 1 1 1 1 1 1 1 (fun _ _ => 0) (fun _ _ => 0) = .ok [0]
      ∧ ([0] : List ℚ).length = (1 / 1 + 1 - 1) * ((1 / 1 + 1 - 1) * (1 * 1 * 1)) :=
  ⟨hog1_eval, C4_feature_vector_length.1 1 1 1 1 1 1 1 (fun _ _ => 0) (fun _ _ => 0) [0] hog1_eval⟩

theorem bd33_eval :
    blockDescriptor 3 3 2 2 1 1 2 (fun _ _ => 1) (fun _ _ => 1) 0 0 = .ok [0, 1] := by
  have h0 := histEntry_bin_zero 3 3 2 2 (fun _ _ => 1) (fun _ _ => 1) 0 0
  have h9 : histEntry 3 3 2 2 (fun _ _ => 1) (fun _ _ => 1) 0 0 1 = 9 := by
    norm_num [histEntry, Finset.sum_Ico_eq_sum_range, Finset.sum_range_succ]
  have hl1 : blockSumL1 3 3 2 2 1 1 2 (fun _ _ => 1) (fun _ _ => 1) 0 0 = 9 := by
    have hsplit : blockSumL1 3 3 2 2 1 1 2 (fun _ _ => 1) (fun _ _ => 1) 0 0
        = histEntry 3 3 2 2 (fun _ _ => 1) (fun _ _ => 1) 0 0 0
          + histEntry 3 3 2 2 (fun _ _ => 1) (fun _ _ => 1) 0 0 1 := by
      norm_num [blockSumL1, Finset.sum_Ico_eq_sum_range, Finset.sum_range_succ]
    rw [hsplit, h0, h9]
    norm_num
  simp only [blockDescriptor]
  rw [hl1]
  rw [if_pos (by norm_num : (0 : ℚ) < 9)]
  rw [if_pos (by norm_num :
    (min (0 * 2 + 1) (3 / 2) - 0 * 2) * (min (0 * 2 + 1) (3 / 2) - 0 * 2) * 2 = 1 * 1 * 2)]
  unfold blockFlattenDiv
  rw [show min (0 * 2 + 1) (3 / 2) - 0 * 2 = 1 from by norm_num]
  rw [show List.range 1 = [0] from rfl, show List.range 2 = [0, 1] from rfl]
  simp only [List.flatMap_cons, List.flatMap_nil, List.map_cons, List.map_nil,
    List.append_nil]
  norm_num [h0, h9]

theorem hog33_eval :
    hogFeatureVector 3 3 2 2 1 1 2 (fun _ _ => 1) (fun _ _ => 1) = .ok [0, 1] := by
  simp only [hogFeatureVector]
  rw [if_neg (by norm_num)]
  rw [show (3 : ℕ) / 2 + 1 - 1 = 1 from by norm_num]
  rw [show List.range 1 = [0] from rfl]
  simp only [List.flatMap_cons, List.flatMap_nil, List.map_cons, List.map_nil,
    List.append_nil]
  rw [bd33_eval]
  simp [concatExcept, Except.map]

theorem harrisUniformEmpty (h w : ℕ) (hh : 0 < h) (hw : 0 < w)
    (img : ℕ → ℕ → ℚ) (W : Fin 5 → Fin 5 → ℚ) (kappa t v : ℚ)
    (himg : ∀ r c, r < h → c < w → img r c = v) (ht : 0 < t) :
    harrisKeypoints h w img W kappa t = .ok ∅ := by
  unfold harrisKeypoints
  rw [if_neg (by omega : ¬(h = 0 ∨ w = 0))]
  congr 1
  unfold harrisRaw
  rw [Finset.filter_eq_empty_iff]
  intro p hp
  simp only [cornerResponse_const h w hh hw img W kappa v himg]
  rintro ⟨heq, hgt⟩
  linarith

/-- C5: whenever a Block Descriptor is produced (magnitudes nonnegative, as
`cv2.cartToPolar` guarantees), it equals the covered cell histograms
flattened and divided by their sum when that sum is nonzero, is all-zero
when the sum is zero, and consequently its entries sum to 0 or 1 (exactly,
in the rational model). -/
theorem C5_block_normalization (h w ch cw bh bw nb : ℕ) (mag : ℕ → ℕ → ℚ)
    (bins : ℕ → ℕ → ℕ) (hmag : ∀ r c, 0 ≤ mag r c) (j i : ℕ) (d : List ℚ)
    (hd : blockDescriptor h w ch cw bh bw nb mag bins j i = .ok d) :
    (blockSumL1 h w ch cw bh bw nb mag bins j i = 0 →
        d = List.replicate (bh * bw * nb) 0)
      ∧ (blockSumL1 h w ch cw bh bw nb mag bins j i ≠ 0 →
          d = blockFlattenDiv h w ch cw bh bw nb mag bins j i
                (blockSumL1 h w ch cw bh bw nb mag bins j i))
      ∧ (d.sum = 0 ∨ d.sum = 1) := by
  refine ⟨?_, ?_, blockDescriptor_sum h w ch cw bh bw nb mag bins j i d hd⟩
  · intro hz
    simp only [blockDescriptor] at hd
    rw [if_neg (by rw [hz]; exact lt_irrefl 0)] at hd
    exact (Except.ok.inj hd).symm
  · intro hnz
    have hpos : 0 < blockSumL1 h w ch cw bh bw nb mag bins j i :=
      lt_of_le_of_ne (blockSumL1_nonneg h w ch cw bh bw nb mag bins hmag j i) (Ne.symm hnz)
    simp only [blockDescriptor] at hd
    split_ifs at hd with h1 h2
    · exact (Except.ok.inj hd).symm
    · exfalso
      have hnb : nb = 1 := Nat.eq_one_of_mul_eq_one_left h2
      rw [hnb] at hnz
      exact hnz (blockSumL1_of_one_bin h w ch cw bh bw mag bins j i)

/-- C5 witness: the 3×3 image run with one 1×1-cell block, uniform unit
magnitudes in bin 1; the descriptor `[0, 1]` is the normalized flatten and
sums to 1. -/
theorem C5_witness :
    (blockSumL1 3 3 2 2 1 1 2 (fun _ _ => 1) (fun _ _ => 1) 0 0 = 0 →
        ([0, 1] : List ℚ) = List.replicate (1 * 1 * 2) 0)
      ∧ (blockSumL1 3 3 2 2 1 1 2 (fun _ _ => 1) (fun _ _ => 1) 0 0 ≠ 0 →
          ([0, 1] : List ℚ) = blockFlattenDiv 3 3 2 2 1 1 2 (fun _ _ => 1) (fun _ _ => 1) 0 0
              (blockSumL1 3 3 2 2 1 1 2 (fun _ _ => 1) (fun _ _ => 1) 0 0))
      ∧ (([0, 1] : List ℚ).sum = 0 ∨ ([0, 1] : List ℚ).sum = 1) :=
  C5_block_normalization 3 3 2 2 1 1 2 (fun _ _ => 1) (fun _ _ => 1)
    (fun _ _ => by norm_num) 0 0 [0, 1] bd33_eval

/-- C6: for every nonempty image of uniform constant intensity and every
strictly positive threshold (any smoothing window and sensitivity), the
Corner Scorer returns an empty Keypoint Set. -/
theorem C6_uniform_image_empty (h w : ℕ) (hh : 0 < h) (hw : 0 < w)
    (img : ℕ → ℕ → ℚ) (W : Fin 5 → Fin 5 → ℚ) (kappa t v : ℚ)
    (himg : ∀ r c, r < h → c < w → img r c = v) (ht : 0 < t) :
    harrisKeypoints h w img W kappa t = .ok ∅ :=
  harrisUniformEmpty h w hh hw img W kappa t v himg ht

/-- C6 witness: a 1×1 image of constant intensity 3 with threshold 1. -/
theorem C6_witness :
    harrisKeypoints 1 1 (fun _ _ => 3) (fun _ _ => 1) (1 / 20) 1 = .ok ∅ :=
  C6_uniform_image_empty 1 1 one_pos one_pos (fun _ _ => 3) (fun _ _ => 1) (1 / 20) 1 3
    (fun _ _ _ _ => rfl) one_pos

/-- C7: a pixel belongs to the Corner Scorer's Keypoint Set iff its response
`(Sxx*Syy - Sxy^2) - kappa*(Sxx+Syy)^2` is a (non-strict) maximum over the
5×5 structuring-element neighborhood and strictly exceeds the threshold; a
pixel whose response exactly equals the threshold is excluded. -/
theorem C7_keypoint_membership (h w : ℕ) (img : ℕ → ℕ → ℚ)
    (W : Fin 5 → Fin 5 → ℚ) (kappa t : ℚ) (y x : ℕ) (hy : y < h) (hx : x < w)
    (K : Finset (ℕ × ℕ))
    (hK : harrisKeypoints h w img W kappa t = .ok K) :
    ((y, x) ∈ K ↔
        (∀ q ∈ nmsWindow h w y x,
            cornerResponse h w img W kappa q.1 q.2
              ≤ cornerResponse h w img W kappa y x)
          ∧ t < cornerResponse h w img W kappa y x)
      ∧ (cornerResponse h w img W kappa y x = t → (y, x) ∉ K) := by
  unfold harrisKeypoints at hK
  rw [if_neg (by omega : ¬(h = 0 ∨ w = 0))] at hK
  have hKe := Except.ok.inj hK
  subst hKe
  have hmem : (y, x) ∈ harrisRaw h w img W kappa t ↔
      (∀ q ∈ nmsWindow h w y x,
          cornerResponse h w img W kappa q.1 q.2
            ≤ cornerResponse h w img W kappa y x)
        ∧ t < cornerResponse h w img W kappa y x := by
    unfold harrisRaw
    rw [Finset.mem_filter]
    constructor
    · rintro ⟨hin, heq, hgt⟩
      refine ⟨?_, hgt⟩
      intro q hq
      have hfold : dilate5 h w (cornerResponse h w img W kappa) y x
          ≤ cornerResponse h w img W kappa y x := le_of_eq heq.symm
      unfold dilate5 at hfold
      rw [Finset.fold_max_le] at hfold
      exact hfold.2 q hq
    · rintro ⟨hall, hgt⟩
      refine ⟨Finset.mem_product.mpr
        ⟨Finset.mem_range.mpr hy, Finset.mem_range.mpr hx⟩, ?_, hgt⟩
      apply le_antisymm
      · unfold dilate5
        exact (Finset.le_fold_max _).mpr (Or.inl le_rfl)
      · unfold dilate5
        rw [Finset.fold_max_le]
        exact ⟨le_rfl, fun q hq => hall q hq⟩
  refine ⟨hmem, fun heqt hin => ?_⟩
  have hgt := (hmem.mp hin).2
  rw [heqt] at hgt
  exact lt_irrefl t hgt

/-- C7 witness: the 1×1 zero image with box window, `kappa = 0`,
threshold 1; the keypoint set is empty and the equivalence is instantiated
at pixel `(0, 0)`. -/
theorem C7_witness :
    (((0, 0) ∈ (∅ : Finset (ℕ × ℕ)) ↔
        (∀ q ∈ nmsWindow 1 1 0 0,
            cornerResponse 1 1 (fun _ _ => 0) (fun _ _ => 1) 0 q.1 q.2
              ≤ cornerResponse 1 1 (fun _ _ => 0) (fun _ _ => 1) 0 0 0)
          ∧ (1 : ℚ) < cornerResponse 1 1 (fun _ _ => 0) (fun _ _ => 1) 0 0 0)
      ∧ (cornerResponse 1 1 (fun _ _ => 0) (fun _ _ => 1) 0 0 0 = 1 →
          (0, 0) ∉ (∅ : Finset (ℕ × ℕ)))) :=
  C7_keypoint_membership 1 1 (fun _ _ => 0) (fun _ _ => 1) 0 1 0 0 one_pos one_pos ∅
    (harrisUniformEmpty 1 1 one_pos one_pos (fun _ _ => 0) (fun _ _ => 1) 0 1 0
      (fun _ _ _ _ => rfl) one_pos)

/-- C8 counterexample: a 3×3 image is not evenly divisible by the 2×2 cell
size, yet the builder silently returns the Feature Vector `[0, 1]` (the
Python-2 integer division floors the cell grid to 1×1 and the leftover
pixels are ignored); it raises no `InvalidConfiguration`. -/
theorem C8_counterexample :
    hogFeatureVector 3 3 2 2 1 1 2 (fun _ _ => 1) (fun _ _ => 1) = .ok [0, 1]
      ∧ hogFeatureVector 3 3 2 2 1 1 2 (fun _ _ => 1) (fun _ _ => 1)
          ≠ .error .invalidConfiguration := by
  refine ⟨hog33_eval, ?_⟩
  rw [hog33_eval]
  intro hcon
  cases hcon

/-- C8 amended: the notebook performs no configuration validation.  When the
block exceeds the cell grid by two or more on an axis, `np.zeros` fails with
a negative-dimension error (not a named `InvalidConfiguration`); when it
exceeds it by exactly one, the builder silently returns an empty Feature
Vector; and non-divisible image dimensions are silently floored (see the
counterexample), never raising `InvalidConfiguration`. -/
theorem C8_no_validation :
    (∀ h w ch cw bh bw nb : ℕ, ∀ mag : ℕ → ℕ → ℚ, ∀ bins : ℕ → ℕ → ℕ,
        h / ch + 1 < bh ∨ w / cw + 1 < bw →
        hogFeatureVector h w ch cw bh bw nb mag bins = .error .negativeDimension)
      ∧ ∀ h w ch cw bh bw nb : ℕ, ∀ mag : ℕ → ℕ → ℚ, ∀ bins : ℕ → ℕ → ℕ,
          bh ≤ h / ch + 1 → bw ≤ w / cw + 1 →
          (bh = h / ch + 1 ∨ bw = w / cw + 1) →
          hogFeatureVector h w ch cw bh bw nb mag bins = .ok [] := by
  constructor
  · intro h w ch cw bh bw nb mag bins hlt
    simp only [hogFeatureVector]
    rw [if_pos hlt]
  · intro h w ch cw bh bw nb mag bins hbh hbw heq
    simp only [hogFeatureVector]
    rw [if_neg (by omega)]
    rcases heq with he | he
    · have hrb : h / ch + 1 - bh = 0 := by omega
      rw [hrb]
      rw [show List.range 0 = [] from rfl]
      rfl
    · have hcb : w / cw + 1 - bw = 0 := by omega
      simp only [hcb]
      rw [show List.range 0 = [] from rfl]
      simp only [List.map_nil]
      exact concatExcept_flatMap_nil _

/-- C8 witness: with a 1×1 cell grid, a 3-cell-high block fails with the
negative-dimension error, while a 2-cell-high block silently yields the
empty Feature Vector. -/
theorem C8_witness :
    hogFeatureVector 2 2 2 2 3 1 1 (fun _ _ => 1) (fun _ _ => 1)
        = .error .negativeDimension
      ∧ hogFeatureVector 2 2 2 2 2 1 1 (fun _ _ => 1) (fun _ _ => 1) = .ok [] :=
  ⟨C8_no_validation.1 2 2 2 2 3 1 1 (fun _ _ => 1) (fun _ _ => 1) (Or.inl (by norm_num)),
    C8_no_validation.2 2 2 2 2 2 1 1 (fun _ _ => 1) (fun _ _ => 1) (by norm_num)
      (by norm_num) (Or.inl (by norm_num))⟩

/-- C9: for every empty (zero-height or zero-width) image, the Corner Scorer
fails with `InvalidInput` instead of returning a Keypoint Set. -/
theorem C9_empty_image_invalid_input (h w : ℕ) (img : ℕ → ℕ → ℚ)
    (W : Fin 5 → Fin 5 → ℚ) (kappa t : ℚ) (hzero : h = 0 ∨ w = 0) :
    harrisKeypoints h w img W kappa t = .error .invalidInput := by
  unfold harrisKeypoints
  rw [if_pos hzero]

/-- C9 witness: a 0×3 image. -/
theorem C9_witness :
    harrisKeypoints 0 3 (fun _ _ => 1) (fun _ _ => 1) (1 / 20) 5
        = .error .invalidInput :=
  C9_empty_image_invalid_input 0 3 (fun _ _ => 1) (fun _ _ => 1) (1 / 20) 5 (Or.inl rfl)

/-- C10: whenever the HoG builder returns a Feature Vector (magnitudes
nonnegative, as `cv2.cartToPolar` guarantees), every entry of the vector is
nonnegative. -/
theorem C10_feature_vector_nonneg (h w ch cw bh bw nb : ℕ) (mag : ℕ → ℕ → ℚ)
    (bins : ℕ → ℕ → ℕ) (hmag : ∀ r c, 0 ≤ mag r c) (fv : List ℚ)
    (hfv : hogFeatureVector h w ch cw bh bw nb mag bins = .ok fv) :
    ∀ x ∈ fv, 0 ≤ x := by
  intro x hx
  simp only [hogFeatureVector] at hfv
  split_ifs at hfv with hneg
  obtain ⟨e, he, d, hde, hxd⟩ := concatExcept_ok_mem _ fv hfv x hx
  rcases List.mem_flatMap.mp he with ⟨j, hj, hmem⟩
  rcases List.mem_map.mp hmem with ⟨i, hi, hei⟩
  subst hei
  exact blockDescriptor_entries_nonneg h w ch cw bh bw nb mag bins hmag j i d hde x hxd

/-- C10 witness: the 3×3 run returns `[0, 1]`, whose entries are
nonnegative. -/
theorem C10_witness :
    hogFeatureVector 3 3 2 2 1 1 2 (fun _ _ => 1) (fun _ _ => 1) = .ok [0, 1]
      ∧ ∀ x ∈ ([0, 1] : List ℚ), 0 ≤ x :=
  ⟨hog33_eval, C10_feature_vector_nonneg 3 3 2 2 1 1 2 (fun _ _ => 1) (fun _ _ => 1)
    (fun _ _ => by norm_num) [0, 1] hog33_eval⟩
